import Mathlib

/-!
# Verification of the org-viewer rendering core

Shallow embedding of the org-viewer extension's core passes, translated from
the TypeScript sources:

* `src/orgMetadata.ts` — the metadata normalizer (`visitNode`) and the
  checkbox injector (`addCheckboxes`) over the uniorg syntax tree;
* `src/orgParser.ts` — the unknown-node sanitizer (`rehypeCleanUnknownNodes`)
  over the hast render tree, and the `orgToHtml` pipeline boundary;
* `src/webview.ts` — the structural enhancer: flat-to-nested section
  construction (`buildSections`), stacked sticky offsets, the collapse
  state machine, and file-reference linkification.

Syntax-tree nodes are embedded as a single inductive with the fields the
transforms read (`type`, `key`, `value`, `checkbox`, planning timestamps as
their `rawValue` strings, clock `duration`/`status`, drawer `name`, latex
`contents`, `children`).  Source-position bookkeeping fields
(`contentsBegin`, `contentsEnd`, `affiliated`) are carried by the real nodes
but never read by any transform, so they are omitted here.  JavaScript
exceptions are modelled with `Except`, absent (`undefined`) fields with
`Option`.
-/

set_option maxHeartbeats 1000000

namespace OrgViewer

/-- A uniorg syntax-tree node.  Field order:
kind, value, key, checkbox, scheduled, deadline, closed, duration, status,
name, contents, children.  Timestamp objects are represented by their
`rawValue` string (the only part the normalizer reads). -/
inductive Org where
  | mk (kind : String) (value : Option String) (key : String)
       (checkbox : Option String)
       (scheduled : Option String) (deadline : Option String)
       (closed : Option String)
       (duration : String) (status : String) (name : String)
       (contents : String)
       (children : List Org)

def Org.kind : Org → String
  | .mk k _ _ _ _ _ _ _ _ _ _ _ => k

def Org.value : Org → Option String
  | .mk _ v _ _ _ _ _ _ _ _ _ _ => v

def Org.key : Org → String
  | .mk _ _ k _ _ _ _ _ _ _ _ _ => k

def Org.checkbox : Org → Option String
  | .mk _ _ _ c _ _ _ _ _ _ _ _ => c

def Org.scheduled : Org → Option String
  | .mk _ _ _ _ s _ _ _ _ _ _ _ => s

def Org.deadline : Org → Option String
  | .mk _ _ _ _ _ d _ _ _ _ _ _ => d

def Org.closed : Org → Option String
  | .mk _ _ _ _ _ _ c _ _ _ _ _ => c

def Org.duration : Org → String
  | .mk _ _ _ _ _ _ _ d _ _ _ _ => d

def Org.status : Org → String
  | .mk _ _ _ _ _ _ _ _ s _ _ _ => s

def Org.name : Org → String
  | .mk _ _ _ _ _ _ _ _ _ n _ _ => n

def Org.contents : Org → String
  | .mk _ _ _ _ _ _ _ _ _ _ c _ => c

def Org.children : Org → List Org
  | .mk _ _ _ _ _ _ _ _ _ _ _ cs => cs

/-- Replace the children of a node, keeping every other field. -/
def Org.setChildren (cs : List Org) : Org → Org
  | .mk k v key cb s d c du st nm ct _ => .mk k v key cb s d c du st nm ct cs

/-- Node `{ type: "text", value: v }`. -/
def textNode (v : String) : Org :=
  .mk "text" (some v) "" none none none none "" "" "" "" []

/-- Node `{ type: "bold", children: cs }`. -/
def boldNode (cs : List Org) : Org :=
  .mk "bold" none "" none none none none "" "" "" "" cs

/-- Node `{ type: "code", value: v }`. -/
def codeNode (v : String) : Org :=
  .mk "code" (some v) "" none none none none "" "" "" "" []

/-- Node `{ type: "line-break" }`. -/
def lineBreakNode : Org :=
  .mk "line-break" none "" none none none none "" "" "" "" []

/-- Node `{ type: "paragraph", children: cs }`. -/
def paragraphNode (cs : List Org) : Org :=
  .mk "paragraph" none "" none none none none "" "" "" "" cs

/-- Node `{ type: "latex-environment", value: v }`. -/
def latexEnvironmentNode (v : String) : Org :=
  .mk "latex-environment" (some v) "" none none none none "" "" "" "" []

/-! ## Metadata normalizer (`orgMetadata.ts`, `visitNode` and its
block builders) -/

/-- The keyword allow-list `displayKeys` of `visitNode`. -/
def displayKeys : List String :=
  ["TITLE", "AUTHOR", "DATE", "EMAIL", "DESCRIPTION",
   "CATEGORY", "FILETAGS", "LANGUAGE"]

/-- Source function `makeMetaBlock(key, value)`. -/
def makeMetaBlock (key value : String) : Org :=
  paragraphNode
    [boldNode [textNode (key ++ ": ")], textNode (value ++ "\n")]

/-- One planning field of `makePlanningBlock`: the source builds the string
`"SCHEDULED: <raw>"` and then re-splits it at the first `":"`, which always
recovers the label and the raw timestamp, so the pair is carried directly.
A `"  "` separator text node precedes every field but the first. -/
def planningItem (first : Bool) (p : String × String) : List Org :=
  (if first then [] else [textNode "  "]) ++
    [boldNode [textNode (p.1 ++ ": ")], codeNode p.2]

/-- Source function `makePlanningBlock(parts)`. -/
def makePlanningBlock (parts : List (String × String)) : Org :=
  paragraphNode
    ((match parts with
      | [] => []
      | p :: rest => planningItem true p ++ rest.flatMap (planningItem false))
     ++ [textNode "\n"])

/-- Source function `makePropertyDrawer(props)`. -/
def makePropertyDrawer (props : List (String × String)) : Org :=
  paragraphNode
    ([boldNode [textNode "Properties"], lineBreakNode] ++
     props.flatMap (fun p => [codeNode p.1, textNode (": " ++ p.2), lineBreakNode]))

/-- Source function `makeClockEntry(timeStr, duration, status)`. -/
def makeClockEntry (timeStr duration status : String) : Org :=
  paragraphNode
    ([boldNode [textNode "CLOCK: "], codeNode timeStr] ++
     (if duration = "" then [] else [textNode " => ", codeNode duration]) ++
     (if status = "" then [] else [textNode status]) ++
     [textNode "\n"])

/-- The key/value pairs of the `node-property` children of a property
drawer, as collected by `visitNode` and `makeCustomDrawer`. -/
def nodeProps (n : Org) : List (String × String) :=
  (n.children.filter (fun c => c.kind = "node-property")).map
    (fun c => (c.key, c.value.getD ""))

/-- The present planning sub-fields, in the fixed
scheduled/deadline/closed order of `visitNode`. -/
def planningParts (n : Org) : List (String × String) :=
  (match n.scheduled with | some r => [("SCHEDULED", r)] | none => []) ++
  (match n.deadline with | some r => [("DEADLINE", r)] | none => []) ++
  (match n.closed with | some r => [("CLOSED", r)] | none => [])

/-- The clock rendering shared by the `clock` case of `visitNode` and the
clock branch of `makeCustomDrawer` (both inline the same three lines). -/
def clockEntryOf (n : Org) : Org :=
  makeClockEntry (n.value.getD "") n.duration
    (if n.status = "running" then " (running)" else "")

/-- One drawer child of `makeCustomDrawer`: clocks and non-empty property
drawers are re-expanded locally, an empty property drawer is dropped,
everything else passes through. -/
def drawerChild (child : Org) : List Org :=
  if child.kind = "clock" then [clockEntryOf child]
  else if child.kind = "property-drawer" then
    (let props := nodeProps child
     if props = [] then [] else [makePropertyDrawer props])
  else [child]

/-- Source function `makeCustomDrawer(name, node)`. -/
def makeCustomDrawer (name : String) (node : Org) : List Org :=
  paragraphNode [boldNode [textNode name], textNode "\n"] ::
    node.children.flatMap drawerChild

/-- The test `value.startsWith("$$")`, computed on the underlying character list
(a string starts with `"$$"` iff its first two characters are `'$'`). -/
def startsWithDollarDollar (s : String) : Bool :=
  match s.data with
  | '$' :: '$' :: _ => true
  | _ => false

/-- Source function `visitNode(node)` of `orgMetadata.ts`: the per-node rewrite rule of the
metadata normalizer.  The source accumulates `replacements` and ends with
`return replacements.length > 0 ? replacements : [node]`; each branch below
is that branch's accumulated result, with `[n]` for the empty case. -/
def visitNode (n : Org) : List Org :=
  if n.kind = "keyword" then
    (if displayKeys.contains n.key then
       [makeMetaBlock n.key (n.value.getD "")]
     else [n])
  else if n.kind = "planning" then
    (let parts := planningParts n
     if parts = [] then [n] else [makePlanningBlock parts])
  else if n.kind = "property-drawer" then
    (let props := nodeProps n
     if props = [] then [n] else [makePropertyDrawer props])
  else if n.kind = "drawer" then
    makeCustomDrawer n.name n
  else if n.kind = "clock" then
    [clockEntryOf n]
  else if n.kind = "latex-fragment" then
    (if startsWithDollarDollar (n.value.getD "") then
       [latexEnvironmentNode n.contents.trim]
     else [n])
  else [n]

/-! ### C5 — display vs inline math -/

/-- C5: for every math-fragment node, `visitNode` reclassifies it as a
display-math (`latex-environment`) node carrying the trimmed inner
`contents` exactly when its raw `value` starts with `"$$"`, and otherwise
passes it through unchanged as inline math; hence `"$$x^2$$"` and
`"$x^2$"` are distinguishable in the output. -/
theorem visitNode_latex_fragment_display (n : Org)
    (hk : n.kind = "latex-fragment") :
    (startsWithDollarDollar (n.value.getD "") = true →
       visitNode n = [latexEnvironmentNode n.contents.trim]) ∧
    (startsWithDollarDollar (n.value.getD "") = false →
       visitNode n = [n]) := by
  constructor <;> intro h <;> simp [visitNode, hk, h]

/-- A concrete `"$$x^2$$"` fragment (display math). -/
def displayFragment : Org :=
  .mk "latex-fragment" (some "$$x^2$$") "" none none none none "" "" "" "x^2" []

/-- A concrete `"$x^2$"` fragment (inline math). -/
def inlineFragment : Org :=
  .mk "latex-fragment" (some "$x^2$") "" none none none none "" "" "" "x^2" []

/-- Witness for C5: `"$$x^2$$"` becomes a display-math node while
`"$x^2$"` passes through, so the two render differently. -/
theorem visitNode_latex_fragment_display_witness :
    visitNode displayFragment = [latexEnvironmentNode "x^2".trim] ∧
    visitNode inlineFragment = [inlineFragment] := by
  constructor
  · exact (visitNode_latex_fragment_display displayFragment rfl).1 (by decide)
  · exact (visitNode_latex_fragment_display inlineFragment rfl).2 (by decide)

/-! ### C6 — an empty planning node / property drawer is passed through,
not replaced by zero nodes -/

/-- A planning node with no scheduled, deadline, or closed sub-field. -/
def emptyPlanning : Org :=
  .mk "planning" none "" none none none none "" "" "" "" []

/-- A property drawer with no `node-property` children. -/
def emptyPropertyDrawer : Org :=
  .mk "property-drawer" none "" none none none none "" "" "" "" []

/-- C6 counterexample: the normalizer does NOT replace an empty planning
node (or an empty property drawer) with zero output nodes — `visitNode`
falls through `replacements.length > 0 ? replacements : [node]` and
returns the original node unchanged. -/
theorem visitNode_empty_planning_not_removed :
    visitNode emptyPlanning = [emptyPlanning] ∧
    visitNode emptyPlanning ≠ ([] : List Org) ∧
    visitNode emptyPropertyDrawer = [emptyPropertyDrawer] ∧
    visitNode emptyPropertyDrawer ≠ ([] : List Org) := by
  have h1 : visitNode emptyPlanning = [emptyPlanning] := rfl
  have h2 : visitNode emptyPropertyDrawer = [emptyPropertyDrawer] := rfl
  exact ⟨h1, by rw [h1]; simp, h2, by rw [h2]; simp⟩

/-- C6 amended: `visitNode` passes a planning node with no present
sub-field through unchanged (one output node, the original), and likewise
a property-drawer node containing no key/value pairs; the node then
disappears only because the downstream converter drops these kinds. -/
theorem visitNode_empty_planning_passthrough :
    (∀ n : Org, n.kind = "planning" → n.scheduled = none →
       n.deadline = none → n.closed = none → visitNode n = [n]) ∧
    (∀ n : Org, n.kind = "property-drawer" → nodeProps n = [] →
       visitNode n = [n]) := by
  constructor
  · intro n hk hs hd hc
    simp [visitNode, hk, planningParts, hs, hd, hc]
  · intro n hk hp
    simp [visitNode, hk, hp]

/-- Witness for the amended C6 at the concrete empty nodes. -/
theorem visitNode_empty_planning_passthrough_witness :
    visitNode emptyPlanning = [emptyPlanning] ∧
    visitNode emptyPropertyDrawer = [emptyPropertyDrawer] := by
  constructor
  · exact visitNode_empty_planning_passthrough.1 emptyPlanning rfl rfl rfl rfl
  · exact visitNode_empty_planning_passthrough.2 emptyPropertyDrawer rfl rfl

/-! ## Pipeline boundary (`orgParser.ts`, `orgToHtml` / `escapeHtml`)

The unified processor chain (parse → normalize → convert → sanitize →
serialize) is an external black box from the claim's point of view; a run
that throws is modelled as `Except.error` carrying the error message
(`err instanceof Error ? err.message : String(err)`), a successful run as
`Except.ok` carrying the serialized markup string. -/

/-- How `escapeHtml` escapes one character: the source's chained global
regex replaces (`&`→`&amp;`, then `<`→`&lt;`, then `>`→`&gt;`) equal this
single simultaneous character map, because the replacement entities contain
no `<` or `>` and the `&`s they introduce are produced only after the `&`
pass has already run. -/
def escapeHtmlChar (c : Char) : List Char :=
  if c = '&' then "&amp;".data
  else if c = '<' then "&lt;".data
  else if c = '>' then "&gt;".data
  else [c]

/-- Source function `escapeHtml(text)` of `orgParser.ts`. -/
def escapeHtml (s : String) : String :=
  String.mk (s.data.flatMap escapeHtmlChar)

/-- The template literal returned by the `catch` branch of `orgToHtml`. -/
def orgErrorFragment (message : String) : String :=
  "<div class=\"org-error\">\n      <h3>Org Preview Error</h3>\n      <pre>"
    ++ escapeHtml message ++ "</pre>\n    </div>"

/-- Source function `orgToHtml(orgText)`: run the processor; on success return the result
string, on an exception return the visible error fragment. -/
def orgToHtml (process : String → Except String String)
    (orgText : String) : String :=
  match process orgText with
  | .ok result => result
  | .error message => orgErrorFragment message

theorem escapeHtmlChar_no_angle (c : Char) :
    '<' ∉ escapeHtmlChar c ∧ '>' ∉ escapeHtmlChar c := by
  unfold escapeHtmlChar
  by_cases h1 : c = '&' <;> by_cases h2 : c = '<' <;> by_cases h3 : c = '>' <;>
    simp_all <;> exact ⟨fun h => h2 h.symm, fun h => h3 h.symm⟩

theorem escapeHtml_no_angle (s : String) :
    '<' ∉ (escapeHtml s).data ∧ '>' ∉ (escapeHtml s).data := by
  unfold escapeHtml
  constructor <;>
  · simp only [String.mk, List.mem_flatMap, not_exists]
    rintro x ⟨-, hm⟩
    exact absurd hm (by have := escapeHtmlChar_no_angle x; tauto)

/-! ### C2 — the pipeline boundary never lets an exception escape -/

/-- C2: for every document text, `orgToHtml` returns either the processor's
serialized markup string, or (when the processor run raises) the visible
error fragment — a heading plus a preformatted copy of the message in which
`&`, `<`, `>` are escaped, so the escaped message contains no raw angle
bracket.  Exceptions are modelled as `Except.error`; `orgToHtml` is a total
function of the outcome, so no exception reaches the caller. -/
theorem orgToHtml_total_boundary (process : String → Except String String)
    (orgText : String) :
    (∀ s, process orgText = .ok s → orgToHtml process orgText = s) ∧
    (∀ m, process orgText = .error m →
       orgToHtml process orgText = orgErrorFragment m ∧
       orgErrorFragment m =
         "<div class=\"org-error\">\n      <h3>Org Preview Error</h3>\n      <pre>"
           ++ escapeHtml m ++ "</pre>\n    </div>" ∧
       '<' ∉ (escapeHtml m).data ∧ '>' ∉ (escapeHtml m).data) := by
  constructor
  · intro s h
    simp [orgToHtml, h]
  · intro m h
    refine ⟨by simp [orgToHtml, h], rfl, escapeHtml_no_angle m⟩

/-- Witness for C2: a processor run that fails with the message `"<boom>"`
produces the escaped error fragment, and a successful run passes its markup
through. -/
theorem orgToHtml_total_boundary_witness :
    orgToHtml (fun _ => .error "<boom>") "* doc" =
      orgErrorFragment "<boom>" ∧
    orgToHtml (fun _ => .ok "<h1>ok</h1>") "* doc" = "<h1>ok</h1>" := by
  constructor
  · exact ((orgToHtml_total_boundary (fun _ => .error "<boom>") "* doc").2
      "<boom>" rfl).1
  · exact (orgToHtml_total_boundary (fun _ => .ok "<h1>ok</h1>") "* doc").1
      "<h1>ok</h1>" rfl

/-! ## Collapse/expand state machine (`webview.ts`)

Per-Section view state touched by the two handlers that modify the
`collapsed` class of a section body: the heading click handler installed in
`buildSections` (lines 81–93) and the internal-anchor click handler of
`setupAnchorLinks` (lines 687–718), which removes `collapsed` from every
collapsed ancestor Section of an anchor target.  Nothing else in the
webview script touches a section body's `collapsed` class. -/

/-- The collapse state of one Section: the `collapsed` class on its body
and the text of its toggle glyph. -/
structure SectionUIState where
  collapsed : Bool
  toggleGlyph : String
deriving DecidableEq

/-- A freshly built Section: body without the `collapsed` class, glyph
`"▼"` (`▼`, set when the toggle span is created). -/
def initialSectionState : SectionUIState := ⟨false, "▼"⟩

/-- The events that can reach one Section's state.  `headingClick` is a
click on this Section's own heading, with flags recording whether the click
target sits inside an `<a>` (`closest("a")`) or inside a `.file-ref`
element; `anchorNavigate` is a click on an internal `#anchor` link, with
the flag recording whether this Section is an ancestor of the link's
target; `unrelated` is any other event. -/
inductive WebviewEvent where
  | headingClick (inAnchor : Bool) (inFileRef : Bool)
  | anchorNavigate (ancestorOfTarget : Bool)
  | unrelated
deriving DecidableEq

/-- How one Section's collapse state responds to an event, translated from
the `buildSections` click handler and the `setupAnchorLinks` handler. -/
def sectionStep (ev : WebviewEvent) (st : SectionUIState) : SectionUIState :=
  match ev with
  | .headingClick inAnchor inFileRef =>
      if inAnchor || inFileRef then st
      else
        let collapsed := !st.collapsed
        ⟨collapsed, if collapsed then "▶" else "▼"⟩
  | .anchorNavigate ancestorOfTarget =>
      if ancestorOfTarget && st.collapsed then ⟨false, "▼"⟩ else st
  | .unrelated => st

/-! ### C9 — collapse transitions -/

/-- C9 counterexample: an event that is not a click on the Section's own
heading — an internal anchor-link click whose target lies inside this
collapsed Section — changes the Section's collapse state (it expands it),
refuting "no other event ever changes a Section's collapse state". -/
theorem sectionStep_anchor_changes_state :
    sectionStep (.anchorNavigate true) ⟨true, "▶"⟩ ≠
      (⟨true, "▶"⟩ : SectionUIState) ∧
    sectionStep (.anchorNavigate true) ⟨true, "▶"⟩ =
      (⟨false, "▼"⟩ : SectionUIState) := by
  constructor <;> decide

/-- C9 amended: each Section starts expanded; a direct click on its own
heading (when the target is in neither an embedded link nor a file-ref
element) toggles the `collapsed` class and flips the glyph between its two
fixed states `"▼"`/`"▶"`; a heading click whose target sits inside a link
or file-ref leaves the state unchanged; and the only OTHER event that
changes a Section's collapse state is an internal anchor-link click whose
target lies inside the (collapsed) Section, which expands it and restores
the `"▼"` glyph. -/
theorem sectionStep_state_machine :
    initialSectionState.collapsed = false ∧
    initialSectionState.toggleGlyph = "▼" ∧
    (∀ st : SectionUIState,
       sectionStep (.headingClick false false) st =
         ⟨!st.collapsed, if !st.collapsed then "▶" else "▼"⟩) ∧
    (∀ (inAnchor inFileRef : Bool) (st : SectionUIState),
       (inAnchor || inFileRef) = true →
       sectionStep (.headingClick inAnchor inFileRef) st = st) ∧
    (∀ st : SectionUIState, st.collapsed = true →
       sectionStep (.anchorNavigate true) st = ⟨false, "▼"⟩) ∧
    (∀ (ev : WebviewEvent) (st : SectionUIState),
       sectionStep ev st ≠ st →
       ev = .headingClick false false ∨
         (ev = .anchorNavigate true ∧ st.collapsed = true)) := by
  refine ⟨rfl, rfl, fun st => rfl, ?_, ?_, ?_⟩
  · intro inAnchor inFileRef st h
    simp [sectionStep, h]
  · intro st h
    simp [sectionStep, h]
  · intro ev st h
    match ev with
    | .headingClick inAnchor inFileRef =>
        cases inAnchor <;> cases inFileRef <;> simp_all [sectionStep]
    | .anchorNavigate ancestorOfTarget =>
        cases ancestorOfTarget <;> cases hst : st.collapsed <;>
          simp_all [sectionStep]
    | .unrelated => simp [sectionStep] at h

/-- Witness for the amended C9: from the initial state a plain heading
click collapses the Section and shows `"▶"`; a heading click inside a link
is ignored; an anchor navigation into a collapsed Section expands it. -/
theorem sectionStep_state_machine_witness :
    sectionStep (.headingClick false false) initialSectionState =
      (⟨true, "▶"⟩ : SectionUIState) ∧
    sectionStep (.headingClick true false) (⟨true, "▶"⟩ : SectionUIState) =
      (⟨true, "▶"⟩ : SectionUIState) ∧
    sectionStep (.anchorNavigate true) (⟨true, "▶"⟩ : SectionUIState) =
      (⟨false, "▼"⟩ : SectionUIState) := by
  refine ⟨?_, ?_, ?_⟩
  · exact sectionStep_state_machine.2.2.1 initialSectionState
  · exact sectionStep_state_machine.2.2.2.1 true false _ rfl
  · exact sectionStep_state_machine.2.2.2.2.1 _ rfl

/-! ## Checkbox injector (`orgMetadata.ts`, `addCheckboxes`) -/

/-- The glyph chosen for a checkbox state: `on → "☑ "`, `off → "☐ "`,
`trans → "☒ "` (the partial state), anything else → `""`. -/
def glyphFor (cb : String) : String :=
  if cb = "on" then "☑ "
  else if cb = "off" then "☐ "
  else if cb = "trans" then "☒ "
  else ""

/-- The non-recursive insertion step of `addCheckboxes` on one node: for a
`list-item` with a truthy checkbox and a non-empty glyph and at least one
child, prepend the glyph text into a non-empty first paragraph, else into a
non-empty first `list-item-tag`, else synthesize a glyph-only paragraph as
the new first child (a first `list-item-tag` with no children falls through
the source's inner `if` and inserts nothing).  The source binds
`symbol = glyphFor cb` once; it is inlined here. -/
def injectGlyph (n : Org) : Org :=
  if n.kind = "list-item" then
    match n.checkbox with
    | some cb =>
        if glyphFor cb = "" then n
        else
          match n.children with
          | [] => n
          | first :: rest =>
              if first.kind == "paragraph" && !first.children.isEmpty then
                n.setChildren
                  (first.setChildren (textNode (glyphFor cb) :: first.children) :: rest)
              else if first.kind == "list-item-tag" then
                (if !first.children.isEmpty then
                   n.setChildren
                     (first.setChildren (textNode (glyphFor cb) :: first.children) :: rest)
                 else n)
              else
                n.setChildren (paragraphNode [textNode (glyphFor cb)] :: first :: rest)
    | none => n
  else n

mutual

/-- Source function `addCheckboxes(node)`: full-tree walk injecting checkbox glyphs.  The
source mutates the node first and then recurses into its (new) children;
since the walk never changes a node's `type`, `checkbox`, or the emptiness
of its child list, and the freshly inserted text/paragraph nodes are fixed
points of the walk, injecting after recursing into the original children —
as written here — produces the same tree. -/
def addCheckboxes (n : Org) : Org :=
  match n with
  | .mk k v key cb s d c du st nm ct children =>
      injectGlyph (.mk k v key cb s d c du st nm ct (addCheckboxesList children))

/-- The child traversal of `addCheckboxes`. -/
def addCheckboxesList : List Org → List Org
  | [] => []
  | x :: xs => addCheckboxes x :: addCheckboxesList xs

end

/-- Does the node's first child open with exactly the glyph `g`: the first
child is a paragraph or description-term (`list-item-tag`) whose first
child is a text fragment of value `g`. -/
def startsWithGlyph (g : String) (n : Org) : Bool :=
  match n.children with
  | first :: _ =>
      match first.children with
      | t :: _ =>
          (first.kind == "paragraph" || first.kind == "list-item-tag") &&
            t.kind == "text" && t.value == some g
      | [] => false
  | [] => false

@[simp] theorem Org.kind_mk (k : String) (v : Option String) (key : String)
    (cb s d c : Option String) (du st nm ct : String) (cs : List Org) :
    (Org.mk k v key cb s d c du st nm ct cs).kind = k := rfl

@[simp] theorem Org.value_mk (k : String) (v : Option String) (key : String)
    (cb s d c : Option String) (du st nm ct : String) (cs : List Org) :
    (Org.mk k v key cb s d c du st nm ct cs).value = v := rfl

@[simp] theorem Org.checkbox_mk (k : String) (v : Option String) (key : String)
    (cb s d c : Option String) (du st nm ct : String) (cs : List Org) :
    (Org.mk k v key cb s d c du st nm ct cs).checkbox = cb := rfl

@[simp] theorem Org.children_mk (k : String) (v : Option String) (key : String)
    (cb s d c : Option String) (du st nm ct : String) (cs : List Org) :
    (Org.mk k v key cb s d c du st nm ct cs).children = cs := rfl

@[simp] theorem Org.setChildren_mk (k : String) (v : Option String)
    (key : String) (cb s d c : Option String) (du st nm ct : String)
    (cs cs2 : List Org) :
    (Org.mk k v key cb s d c du st nm ct cs).setChildren cs2 =
      Org.mk k v key cb s d c du st nm ct cs2 := rfl

@[simp] theorem Org.setChildren_kind (cs : List Org) (n : Org) :
    (n.setChildren cs).kind = n.kind := by cases n; rfl

@[simp] theorem Org.setChildren_children (cs : List Org) (n : Org) :
    (n.setChildren cs).children = cs := by cases n; rfl

@[simp] theorem Org.setChildren_checkbox (cs : List Org) (n : Org) :
    (n.setChildren cs).checkbox = n.checkbox := by cases n; rfl

theorem addCheckboxes_eq (n : Org) :
    addCheckboxes n = injectGlyph (n.setChildren (addCheckboxesList n.children)) := by
  cases n; rfl

theorem addCheckboxesList_eq_map (l : List Org) :
    addCheckboxesList l = l.map addCheckboxes := by
  induction l with
  | nil => rfl
  | cons x xs ih => simp [addCheckboxesList, ih]

theorem injectGlyph_kind (n : Org) : (injectGlyph n).kind = n.kind := by
  unfold injectGlyph
  (repeat' split) <;> (first | rfl | simp)

theorem injectGlyph_children_nil (n : Org) :
    (injectGlyph n).children = [] ↔ n.children = [] := by
  unfold injectGlyph
  (repeat' split) <;> (first | rfl | simp_all)

theorem addCheckboxes_kind (n : Org) : (addCheckboxes n).kind = n.kind := by
  rw [addCheckboxes_eq, injectGlyph_kind, Org.setChildren_kind]

theorem addCheckboxes_children_nil (n : Org) :
    (addCheckboxes n).children = [] ↔ n.children = [] := by
  rw [addCheckboxes_eq, injectGlyph_children_nil, Org.setChildren_children,
    addCheckboxesList_eq_map, List.map_eq_nil_iff]

/-! ### C3 — checkbox glyph injection -/

/-- A list-item carrying `checkbox: "on"` but no children at all: the
source's guard `symbol && node.children && node.children.length > 0`
rejects it, so no glyph is inserted anywhere. -/
def childlessCheckboxItem : Org :=
  .mk "list-item" none "" (some "on") none none none "" "" "" "" []

/-- C3 counterexample: a list-item whose checkbox state is `on` (non-none)
but which has no children receives NO glyph — the injector leaves it
exactly unchanged — refuting "every list-item node whose checkbox state is
non-none has exactly one leading glyph text fragment inserted". -/
theorem addCheckboxes_childless_checkbox_no_glyph :
    childlessCheckboxItem.kind = "list-item" ∧
    childlessCheckboxItem.checkbox = some "on" ∧
    addCheckboxes childlessCheckboxItem = childlessCheckboxItem ∧
    startsWithGlyph "☑ " (addCheckboxes childlessCheckboxItem) = false := by
  refine ⟨rfl, rfl, rfl, rfl⟩

/-- C3 amended: after the checkbox-injection pass, every list-item whose
checkbox state is one of on/off/trans AND that has at least one child —
unless its first child is a description-term (`list-item-tag`) with no
children, in which case nothing is inserted — opens with exactly one
leading glyph text fragment chosen by its state (on → ☑, off → ☐,
partial/trans → ☒); a list-item without a checkbox state (and any
non-list-item) gets no glyph itself, its fields are kept, and only its
children are rewritten recursively. -/
theorem injectGlyph_opens_with_glyph (m : Org) (cb : String)
    (hk : m.kind = "list-item") (hcb : m.checkbox = some cb)
    (hg : glyphFor cb ≠ "") (F : Org) (R : List Org)
    (hch : m.children = F :: R)
    (htag : ¬(F.kind = "list-item-tag" ∧ F.children = [])) :
    startsWithGlyph (glyphFor cb) (injectGlyph m) = true := by
  rcases m with ⟨k, v, key, cbf, s, d, c, du, st, nm, ct, cs⟩
  simp only [Org.kind_mk] at hk
  simp only [Org.checkbox_mk] at hcb
  simp only [Org.children_mk] at hch
  subst hk; subst hcb; subst hch
  rcases F with ⟨fk, fv, fkey, fcb, fs, fd, fc, fdu, fst, fnm, fct, fcs⟩
  simp only [Org.kind_mk, Org.children_mk] at htag
  by_cases hp : fk = "paragraph"
  · subst hp
    cases fcs with
    | nil => simp [injectGlyph, startsWithGlyph, hg, paragraphNode, textNode]
    | cons t ts => simp [injectGlyph, startsWithGlyph, hg, textNode]
  · by_cases ht : fk = "list-item-tag"
    · subst ht
      cases fcs with
      | nil => exact absurd ⟨rfl, rfl⟩ htag
      | cons t ts => simp [injectGlyph, startsWithGlyph, hg, textNode]
    · cases fcs with
      | nil =>
          simp [injectGlyph, startsWithGlyph, hg, hp, ht, paragraphNode,
            textNode]
      | cons t ts =>
          simp [injectGlyph, startsWithGlyph, hg, hp, ht, paragraphNode,
            textNode]

theorem addCheckboxes_glyph_spec :
    (∀ (n : Org) (cb : String) (first : Org) (rest : List Org),
       n.kind = "list-item" → n.checkbox = some cb → glyphFor cb ≠ "" →
       n.children = first :: rest →
       ¬(first.kind = "list-item-tag" ∧ first.children = []) →
       startsWithGlyph (glyphFor cb) (addCheckboxes n) = true) ∧
    (∀ n : Org, n.checkbox = none ∨ n.kind ≠ "list-item" →
       addCheckboxes n = n.setChildren (addCheckboxesList n.children)) ∧
    (∀ (n : Org) (cb : String), n.checkbox = some cb → glyphFor cb = "" →
       addCheckboxes n = n.setChildren (addCheckboxesList n.children)) := by
  refine ⟨?_, ?_, ?_⟩
  · intro n cb first rest hk hcb hg hch htag
    rw [addCheckboxes_eq]
    refine injectGlyph_opens_with_glyph _ cb ?_ ?_ hg (addCheckboxes first)
      (addCheckboxesList rest) ?_ ?_
    · rw [Org.setChildren_kind, hk]
    · rw [Org.setChildren_checkbox, hcb]
    · rw [Org.setChildren_children, hch]; rfl
    · rintro ⟨h1, h2⟩
      exact htag ⟨addCheckboxes_kind first ▸ h1,
        (addCheckboxes_children_nil first).mp h2⟩
  · intro n h
    rw [addCheckboxes_eq]
    unfold injectGlyph
    rcases h with h | h
    · simp only [Org.setChildren_checkbox, h]
      split <;> rfl
    · rw [if_neg (by simpa using h)]
  · intro n cb hcb hg
    rw [addCheckboxes_eq]
    unfold injectGlyph
    simp [Org.setChildren_checkbox, hcb, hg]

/-- A concrete `- [X] task` item: list-item, checkbox on, first child a
paragraph. -/
def checkboxItemEx : Org :=
  .mk "list-item" none "" (some "on") none none none "" "" "" ""
    [paragraphNode [textNode "task"]]

/-- A concrete plain list item without checkbox state. -/
def plainItemEx : Org :=
  .mk "list-item" none "" none none none none "" "" "" ""
    [paragraphNode [textNode "task"]]

/-- Witness for the amended C3: the concrete checkboxed item opens with
the ☑ glyph after the pass, and the checkbox-less item is rebuilt from its
(recursively processed) children with no glyph of its own. -/
theorem addCheckboxes_glyph_spec_witness :
    startsWithGlyph (glyphFor "on") (addCheckboxes checkboxItemEx) = true ∧
    glyphFor "on" = "☑ " ∧
    addCheckboxes plainItemEx =
      plainItemEx.setChildren (addCheckboxesList plainItemEx.children) := by
  refine ⟨?_, rfl, ?_⟩
  · exact addCheckboxes_glyph_spec.1 checkboxItemEx "on"
      (paragraphNode [textNode "task"]) [] rfl rfl (by decide) rfl
      (by rintro ⟨h, -⟩; exact absurd h (by decide))
  · exact addCheckboxes_glyph_spec.2.1 plainItemEx (Or.inl rfl)

/-! ## Unknown-node sanitizer (`orgParser.ts`, `rehypeCleanUnknownNodes`)

A hast render-tree node: its `type`, an optional string `value`, and an
optional children array (`children` being absent and being present-but-empty
are distinct in the source, which tests `if (node.children)` and
`typeof child.value === "string"`). -/

/-- A hast node. -/
inductive Hast where
  | mk (kind : String) (value : Option String) (children : Option (List Hast))

def Hast.kind : Hast → String
  | .mk k _ _ => k

def Hast.value : Hast → Option String
  | .mk _ v _ => v

def Hast.children : Hast → Option (List Hast)
  | .mk _ _ cs => cs

/-- The `knownTypes` set of `rehypeCleanUnknownNodes`. -/
def knownTypes : List String :=
  ["root", "element", "text", "comment", "doctype", "raw"]

mutual

/-- Source function `clean(node)`: if the node has a children array, rebuild it with the
per-child map below (`.flat()` + `.filter(Boolean)` are the `List.append`
of the list-valued branches); the node's own type is NOT examined. -/
def cleanNode : Hast → Hast
  | .mk k v (some cs) => .mk k v (some (cleanChildren cs))
  | .mk k v none => .mk k v none

/-- The call `child.children.map(clean)` of the splice branch: the spliced
grandchildren are cleaned but their own types are not re-checked. -/
def cleanList : List Hast → List Hast
  | [] => []
  | c :: cs => cleanNode c :: cleanList cs

/-- The mapped-and-flattened child transform of `clean`: a known child is
cleaned in place; an unknown child with a string value becomes a plain text
node; an unknown child with a children array is replaced by its cleaned
children; an unknown child with neither is dropped. -/
def cleanChildren : List Hast → List Hast
  | [] => []
  | .mk ck cv cc :: cs =>
      (if knownTypes.contains ck then [cleanNode (.mk ck cv cc)]
       else
         match cv with
         | some v => [Hast.mk "text" (some v) none]
         | none =>
           match cc with
           | some gs => cleanList gs
           | none => []) ++ cleanChildren cs

end

mutual

/-- Every node in the tree has a known type. -/
def allKnown : Hast → Bool
  | .mk k _ none => knownTypes.contains k
  | .mk k _ (some cs) => knownTypes.contains k && allKnownList cs

def allKnownList : List Hast → Bool
  | [] => true
  | c :: cs => allKnown c && allKnownList cs

end

mutual

/-- Sanitizable shape: every unknown-typed node in the tree either carries
a string value or has only known-typed direct children (so nothing ever
gets spliced in unchecked). -/
def safeShape : Hast → Bool
  | .mk k v cc =>
      (knownTypes.contains k ||
        (match v, cc with
         | some _, _ => true
         | none, some gs => gs.all (fun g => knownTypes.contains g.kind)
         | none, none => true)) &&
      (match cc with
       | some cs => safeShapeList cs
       | none => true)

def safeShapeList : List Hast → Bool
  | [] => true
  | c :: cs => safeShape c && safeShapeList cs

end

@[simp] theorem cleanNode_none (k : String) (v : Option String) :
    cleanNode (.mk k v none) = .mk k v none := by
  rw [cleanNode.eq_def]

@[simp] theorem cleanNode_some (k : String) (v : Option String)
    (cs : List Hast) :
    cleanNode (.mk k v (some cs)) = .mk k v (some (cleanChildren cs)) := by
  rw [cleanNode.eq_def]

@[simp] theorem cleanChildren_nil : cleanChildren [] = [] := by
  rw [cleanChildren.eq_def]

theorem cleanChildren_cons (ck : String) (cv : Option String)
    (cc : Option (List Hast)) (rest : List Hast) :
    cleanChildren (.mk ck cv cc :: rest) =
      (if knownTypes.contains ck then [cleanNode (.mk ck cv cc)]
       else
         match cv with
         | some v => [Hast.mk "text" (some v) none]
         | none =>
           match cc with
           | some gs => cleanList gs
           | none => []) ++ cleanChildren rest := by
  rw [cleanChildren.eq_def]

@[simp] theorem cleanList_nil : cleanList [] = [] := by
  rw [cleanList.eq_def]

@[simp] theorem cleanList_cons (g : Hast) (gs : List Hast) :
    cleanList (g :: gs) = cleanNode g :: cleanList gs := by
  rw [cleanList.eq_def]

@[simp] theorem allKnown_mk_none (k : String) (v : Option String) :
    allKnown (.mk k v none) = knownTypes.contains k := by
  rw [allKnown.eq_def]

@[simp] theorem allKnown_mk_some (k : String) (v : Option String)
    (cs : List Hast) :
    allKnown (.mk k v (some cs)) =
      (knownTypes.contains k && allKnownList cs) := by
  rw [allKnown.eq_def]

@[simp] theorem allKnownList_nil : allKnownList [] = true := by
  rw [allKnownList.eq_def]

@[simp] theorem allKnownList_cons (c : Hast) (cs : List Hast) :
    allKnownList (c :: cs) = (allKnown c && allKnownList cs) := by
  rw [allKnownList.eq_def]

@[simp] theorem safeShapeList_nil : safeShapeList [] = true := by
  rw [safeShapeList.eq_def]

@[simp] theorem safeShapeList_cons (c : Hast) (cs : List Hast) :
    safeShapeList (c :: cs) = (safeShape c && safeShapeList cs) := by
  rw [safeShapeList.eq_def]

theorem safeShape_mk (k : String) (v : Option String)
    (cc : Option (List Hast)) :
    safeShape (.mk k v cc) =
      ((knownTypes.contains k ||
        (match v, cc with
         | some _, _ => true
         | none, some gs => gs.all (fun g => knownTypes.contains g.kind)
         | none, none => true)) &&
      (match cc with
       | some cs => safeShapeList cs
       | none => true)) := by
  rw [safeShape.eq_def]

theorem allKnownList_append (a b : List Hast) :
    allKnownList (a ++ b) = (allKnownList a && allKnownList b) := by
  induction a with
  | nil => simp
  | cons c cs ih => simp [ih, Bool.and_assoc]

theorem clean_safe_aux (N : Nat) :
    (∀ c : Hast, sizeOf c ≤ N → safeShape c = true →
       knownTypes.contains c.kind = true → allKnown (cleanNode c) = true) ∧
    (∀ cs : List Hast, sizeOf cs ≤ N → safeShapeList cs = true →
       allKnownList (cleanChildren cs) = true) ∧
    (∀ gs : List Hast, sizeOf gs ≤ N → safeShapeList gs = true →
       gs.all (fun g => knownTypes.contains g.kind) = true →
       allKnownList (cleanList gs) = true) := by
  induction N with
  | zero =>
      refine ⟨fun c hc => ?_, fun cs hc => ?_, fun gs hc => ?_⟩ <;>
        [cases c; cases cs; cases gs] <;> simp_all <;> omega
  | succ n ih =>
      refine ⟨?_, ?_, ?_⟩
      · intro c hc hs hk
        rcases c with ⟨k, v, cc⟩
        rcases cc with _ | cs
        · simpa [Hast.kind] using hk
        · have hcs : sizeOf cs ≤ n := by simp at hc; omega
          have hss : safeShapeList cs = true := by
            rw [safeShape_mk, Bool.and_eq_true] at hs
            exact hs.2
          simp only [cleanNode_some, allKnown_mk_some, Bool.and_eq_true]
          exact ⟨by simpa [Hast.kind] using hk, ih.2.1 cs hcs hss⟩
      · intro cs hc hs
        rcases cs with _ | ⟨⟨ck, cv, cc⟩, rest⟩
        · simp
        · have hrest : sizeOf rest ≤ n := by simp at hc; omega
          have hchild : sizeOf (Hast.mk ck cv cc) ≤ n := by
            simp at hc ⊢; omega
          simp only [safeShapeList_cons, Bool.and_eq_true] at hs
          rw [cleanChildren_cons, allKnownList_append, Bool.and_eq_true]
          refine ⟨?_, ih.2.1 rest hrest hs.2⟩
          by_cases hck : knownTypes.contains ck = true
          · rw [if_pos hck]
            simp only [allKnownList_cons, allKnownList_nil, Bool.and_true]
            exact ih.1 _ hchild hs.1 (by simpa [Hast.kind] using hck)
          · rw [if_neg hck]
            rcases cv with _ | v
            · rcases cc with _ | gs
              · simp
              · have hgs : sizeOf gs ≤ n := by
                  simp at hchild ⊢; omega
                have h1 := hs.1
                rw [safeShape_mk, Bool.and_eq_true, Bool.or_eq_true] at h1
                rcases h1 with ⟨h1a | h1a, h1b⟩
                · exact absurd h1a hck
                · exact ih.2.2 gs hgs h1b h1a
            · simp [knownTypes]
      · intro gs hc hs hall
        rcases gs with _ | ⟨g, rest⟩
        · simp
        · have hrest : sizeOf rest ≤ n := by simp at hc; omega
          have hg : sizeOf g ≤ n := by simp at hc ⊢; omega
          simp only [safeShapeList_cons, Bool.and_eq_true] at hs
          simp only [List.all_cons, Bool.and_eq_true] at hall
          simp only [cleanList_cons, allKnownList_cons, Bool.and_eq_true]
          exact ⟨ih.1 g hg hs.1 hall.1, ih.2.2 rest hrest hs.2 hall.2⟩

theorem cleanNode_safe_allKnown (c : Hast) (hs : safeShape c = true)
    (hk : knownTypes.contains c.kind = true) :
    allKnown (cleanNode c) = true :=
  (clean_safe_aux (sizeOf c)).1 c le_rfl hs hk

/-! ### C4 — unknown-node sanitization -/

/-- A root whose unknown child `u1` (no value) contains another unknown
node `u2`: the splice branch maps `clean` over `u1`'s children without
re-checking their own types, so `u2` survives. -/
def nestedUnknownTree : Hast :=
  .mk "root" none (some [.mk "u1" none (some [.mk "u2" none none])])

/-- C4 counterexample: cleaning `nestedUnknownTree` splices the unknown
node `u2` into the root's children unchanged, so the resulting tree still
contains an unrecognized node kind — refuting "the resulting tree contains
no unrecognized node kinds". -/
theorem cleanUnknown_nested_unknown_survives :
    cleanNode nestedUnknownTree =
      .mk "root" none (some [.mk "u2" none none]) ∧
    allKnown (cleanNode nestedUnknownTree) = false := by
  have h : cleanNode nestedUnknownTree =
      .mk "root" none (some [.mk "u2" none none]) := by
    rw [nestedUnknownTree, cleanNode_some, cleanChildren_cons,
      if_neg (by decide)]
    simp
  exact ⟨h, by rw [h]; simp [knownTypes]⟩

/-- C4 amended: the sanitizer transforms every child of a kind-checked
position by the claimed rules — an unknown-kinded child with a string
payload becomes a plain text node of that value, else one with a children
array is replaced by its (cleaned) children spliced in place, else it is
dropped — and it never throws (it is a total function); but nodes spliced
in from an unknown node's children are not themselves re-examined, so
unknown kinds are guaranteed to be eliminated only for trees in which
every unknown node carries a string payload or has only known-kinded
direct children. -/
theorem cleanUnknown_spec :
    (∀ c : Hast, safeShape c = true → knownTypes.contains c.kind = true →
       allKnown (cleanNode c) = true) ∧
    (∀ (k v : String) (cc : Option (List Hast)) (cs : List Hast),
       knownTypes.contains k = false →
       cleanChildren (.mk k (some v) cc :: cs) =
         Hast.mk "text" (some v) none :: cleanChildren cs) ∧
    (∀ (k : String) (gs cs : List Hast),
       knownTypes.contains k = false →
       cleanChildren (.mk k none (some gs) :: cs) =
         cleanList gs ++ cleanChildren cs) ∧
    (∀ (k : String) (cs : List Hast),
       knownTypes.contains k = false →
       cleanChildren (.mk k none none :: cs) = cleanChildren cs) := by
  refine ⟨fun c hs hk => cleanNode_safe_allKnown c hs hk, ?_, ?_, ?_⟩
  · intro k v cc cs h
    rw [cleanChildren_cons, if_neg (by simpa using h)]
    rfl
  · intro k gs cs h
    rw [cleanChildren_cons, if_neg (by simpa using h)]
  · intro k cs h
    rw [cleanChildren_cons, if_neg (by simpa using h)]
    rfl

/-- Witness for the amended C4: a root with one unknown child carrying a
string payload cleans to an all-known tree, and that child becomes the
claimed plain text node. -/
theorem cleanUnknown_spec_witness :
    allKnown
      (cleanNode (.mk "root" none (some [.mk "mystery" (some "x") none]))) =
      true ∧
    cleanChildren [.mk "mystery" (some "x") none] =
      [Hast.mk "text" (some "x") none] := by
  constructor
  · exact cleanUnknown_spec.1 _ (by simp [safeShape_mk, knownTypes]) (by decide)
  · exact (cleanUnknown_spec.2.1 "mystery" "x" none [] (by decide)).trans
      (by simp)

/-! ## Structural enhancer: flat-to-nested section construction
(`webview.ts`, `buildSections`)

The flat rendered children of the article are modelled by their heading
level (`headingLevel` returns 1–6 for `H1`–`H6` elements and 0 for any
non-heading child) and an identifying label.  The built structure is a
forest of Sections — each Section wrapping, by construction exactly as in
the source, its own heading plus a single body container — and moved
non-heading content.  The source attaches each new Section to the body of
the stack top at creation time and mutates bodies in place; functionally,
a frame's accumulated body is attached to its parent when the frame is
popped, which yields the same final tree because nothing can be appended
to a parent's body while a child frame sits above it. -/

/-- One top-level rendered child: `level = headingLevel(child)`, 0 for
non-heading content. -/
inductive FlatChild where
  | elem (level : Nat) (label : String)
deriving DecidableEq

def FlatChild.level : FlatChild → Nat
  | .elem l _ => l

/-- A node of the built structure: a Section (`div.doc-section` holding
its heading and one `div.section-body` of children) or moved non-heading
content. -/
inductive SNode where
  | sec (level : Nat) (heading : String) (body : List SNode)
  | content (label : String)

/-- One stack entry `{ level, body }` of `buildSections`, together with
the heading the pending Section will wrap. -/
structure Frame where
  level : Nat
  heading : String
  body : List SNode

/-- Close a frame into its Section node. -/
def closeFrame (f : Frame) : SNode := .sec f.level f.heading f.body

/-- The continuation of the pop loop once the top frame has been popped:
`s` is the Section just closed; it lands in the body of the next frame
down — which may itself close and carry it further — or in the root list
when the stack empties. -/
def popGEAux (L : Nat) (s : SNode) : List Frame → List SNode →
    List Frame × List SNode
  | [], root => ([], root ++ [s])
  | g :: rs, root =>
      if L ≤ g.level then
        popGEAux L (closeFrame { g with body := g.body ++ [s] }) rs root
      else ({ g with body := g.body ++ [s] } :: rs, root)

/-- The loop `while (stack.length > 0 && stack[stack.length-1].level >= level)
stack.pop()`: pop every frame whose level is ≥ `L`, attaching each closed
Section to the body of the frame below it (or to the root list when the
stack empties).  The stack's head is its top. -/
def popGE (L : Nat) (stack : List Frame) (root : List SNode) :
    List Frame × List SNode :=
  match stack with
  | [] => ([], root)
  | f :: rest =>
      if L ≤ f.level then popGEAux L (closeFrame f) rest root
      else (f :: rest, root)

/-- The loop body of `buildSections` over the flat children: a child with
`level > 0` pops frames with level ≥ its own, opens a new Section with an
empty body on the stack; any other child is appended to the top frame's
body (or the root).  At the end every remaining frame is closed
(`popGE 0`), mirroring the fact that the source attached those Sections
when they were created. -/
def buildGo (cs : List FlatChild) (stack : List Frame)
    (root : List SNode) : List SNode :=
  match cs with
  | [] => (popGE 0 stack root).2
  | .elem level label :: rest =>
      if level > 0 then
        let p := popGE level stack root
        buildGo rest (⟨level, label, []⟩ :: p.1) p.2
      else
        match stack with
        | [] => buildGo rest [] (root ++ [.content label])
        | f :: frest =>
            buildGo rest
              ({ f with body := f.body ++ [.content label] } :: frest) root

/-- Source function `buildSections()`: fold the flat children with an empty stack. -/
def buildSections (cs : List FlatChild) : List SNode := buildGo cs [] []

/-- The number of Section wrappers in a forest. -/
def countSecs : List SNode → Nat
  | [] => 0
  | .sec _ _ body :: rest => 1 + countSecs body + countSecs rest
  | .content _ :: rest => countSecs rest

/-- The number of headings (children with `headingLevel > 0`) in the flat
input. -/
def countHeadings : List FlatChild → Nat
  | [] => 0
  | .elem l _ :: cs => (if l > 0 then 1 else 0) + countHeadings cs

/-- Sections pending on the stack: one per frame plus the sections already
inside each frame's body. -/
def stackSecs : List Frame → Nat
  | [] => 0
  | f :: rest => 1 + countSecs f.body + stackSecs rest

theorem countSecs_append (a b : List SNode) :
    countSecs (a ++ b) = countSecs a + countSecs b := by
  induction a with
  | nil => simp [countSecs]
  | cons x xs ih =>
      cases x <;> simp [countSecs, ih] <;> omega

theorem popGEAux_count (L : Nat) :
    ∀ (stack : List Frame) (s : SNode) (root : List SNode),
    countSecs (popGEAux L s stack root).2 +
      stackSecs (popGEAux L s stack root).1 =
    countSecs root + stackSecs stack + countSecs [s] := by
  intro stack
  induction stack with
  | nil =>
      intro s root
      simp [popGEAux, stackSecs, countSecs_append]
  | cons g rs ih =>
      intro s root
      rw [popGEAux]
      split
      · rw [ih]
        simp [closeFrame, countSecs, stackSecs, countSecs_append]
        omega
      · simp [stackSecs, countSecs_append, countSecs]
        omega

theorem popGE_count (L : Nat) (stack : List Frame) (root : List SNode) :
    countSecs (popGE L stack root).2 + stackSecs (popGE L stack root).1 =
      countSecs root + stackSecs stack := by
  cases stack with
  | nil => simp [popGE, stackSecs]
  | cons f rest =>
      rw [popGE]
      split
      · rw [popGEAux_count]
        simp [closeFrame, countSecs, stackSecs]
        omega
      · rfl

theorem popGEAux_zero_stack :
    ∀ (stack : List Frame) (s : SNode) (root : List SNode),
    (popGEAux 0 s stack root).1 = [] := by
  intro stack
  induction stack with
  | nil => intro s root; rfl
  | cons g rs ih =>
      intro s root
      rw [popGEAux, if_pos (Nat.zero_le _)]
      exact ih _ _

theorem popGE_zero_stack (stack : List Frame) (root : List SNode) :
    (popGE 0 stack root).1 = [] := by
  cases stack with
  | nil => rfl
  | cons f rest =>
      rw [popGE, if_pos (Nat.zero_le _)]
      exact popGEAux_zero_stack _ _ _

theorem buildGo_count (cs : List FlatChild) (stack : List Frame)
    (root : List SNode) :
    countSecs (buildGo cs stack root) =
      countHeadings cs + countSecs root + stackSecs stack := by
  induction cs, stack, root using buildGo.induct with
  | case1 stack root =>
      rw [show buildGo [] stack root = (popGE 0 stack root).2 from rfl]
      have hc := popGE_count 0 stack root
      rw [popGE_zero_stack] at hc
      simp only [countHeadings, stackSecs] at hc ⊢
      omega
  | case2 stack root level label rest h p ih =>
      have hp : p = popGE level stack root := rfl
      rw [show buildGo (.elem level label :: rest) stack root =
          buildGo rest (⟨level, label, []⟩ :: p.1) p.2 from by
        rw [buildGo.eq_def]; simp [h]]
      rw [ih]
      have hc := popGE_count level stack root
      rw [← hp] at hc
      simp only [countHeadings, stackSecs, countSecs, h, if_pos]
      omega
  | case3 root level label rest h ih =>
      rw [show buildGo (.elem level label :: rest) [] root =
          buildGo rest [] (root ++ [.content label]) from by
        rw [buildGo.eq_def]; simp [h]]
      rw [ih]
      simp [countHeadings, h, countSecs_append, countSecs, stackSecs]
  | case4 root level label rest h f frest ih =>
      rw [show buildGo (.elem level label :: rest) (f :: frest) root =
          buildGo rest ({ f with body := f.body ++ [.content label] } :: frest)
            root from by
        rw [buildGo.eq_def]; simp [h]]
      rw [ih]
      simp [countHeadings, h, stackSecs, countSecs_append, countSecs]

/-! ### C1 — one Section per heading, nesting by level -/

/-- C1: for every flat child list, the number of Section wrappers built
equals the number of headings — by construction each Section wraps exactly
its own heading and one body container — and the rendered children of
`"* A\n** B\n* C"` (an `H1`, an `H2`, an `H1`) yield exactly two
top-level Sections, with B's Section nested inside A's body and C's
Section a sibling of A's. -/
theorem buildSections_count_and_nesting :
    (∀ cs : List FlatChild,
       countSecs (buildSections cs) = countHeadings cs) ∧
    buildSections [.elem 1 "A", .elem 2 "B", .elem 1 "C"] =
      [.sec 1 "A" [.sec 2 "B" []], .sec 1 "C" []] := by
  constructor
  · intro cs
    rw [buildSections, buildGo_count]
    simp [stackSecs, countSecs]
  · rfl

/-! ## Stacked sticky offsets (`webview.ts`, `setStickyOffsets`)

`setStickyOffsets` walks, for each heading, the chain of its strict
ancestor `.doc-section` elements and sums the `offsetHeight` of each
ancestor's own heading.  Rendered heading heights are an arbitrary
function of the heading; the walk is modelled by carrying the list of
ancestor heading heights while traversing the built Section forest. -/

/-- All `(level, heading, stickyOffset)` triples of a Section forest,
where `anc` holds the rendered heights of the strict ancestor Sections'
headings: each heading's offset is their sum. -/
def headingOffsets (height : String → Nat) :
    List SNode → List Nat → List (Nat × String × Nat)
  | [], _ => []
  | .content _ :: rest, anc => headingOffsets height rest anc
  | .sec l h body :: rest, anc =>
      (l, h, anc.sum) ::
        (headingOffsets height body (height h :: anc) ++
         headingOffsets height rest anc)

/-- Nesting invariant of the built forest: every Section's level exceeds
`m`, and its body is well-nested above its own level. -/
def wellNested (m : Nat) : List SNode → Bool
  | [] => true
  | .content _ :: rest => wellNested m rest
  | .sec l _ body :: rest =>
      decide (m < l) && wellNested l body && wellNested m rest

/-- Stack invariant of `buildGo`: every frame's level is positive, frame
levels strictly increase toward the top of the stack, and every frame's
body is well-nested above the frame's level. -/
def stackOK : List Frame → Bool
  | [] => true
  | f :: rest =>
      decide (0 < f.level) && wellNested f.level f.body &&
      (match rest with
       | [] => true
       | g :: _ => decide (g.level < f.level)) && stackOK rest

/-- The stack's top frame (if any) has level < `L`. -/
def headLt (L : Nat) : List Frame → Bool
  | [] => true
  | f :: _ => decide (f.level < L)

@[simp] theorem headingOffsets_nil (height : String → Nat) (anc : List Nat) :
    headingOffsets height [] anc = [] := by
  rw [headingOffsets.eq_def]

@[simp] theorem headingOffsets_content (height : String → Nat) (lab : String)
    (rest : List SNode) (anc : List Nat) :
    headingOffsets height (.content lab :: rest) anc =
      headingOffsets height rest anc := by
  rw [headingOffsets.eq_def]

@[simp] theorem headingOffsets_sec (height : String → Nat) (l : Nat)
    (h : String) (body rest : List SNode) (anc : List Nat) :
    headingOffsets height (.sec l h body :: rest) anc =
      (l, h, anc.sum) ::
        (headingOffsets height body (height h :: anc) ++
         headingOffsets height rest anc) := by
  rw [headingOffsets.eq_def]

@[simp] theorem wellNested_nil (m : Nat) : wellNested m [] = true := by
  rw [wellNested.eq_def]

@[simp] theorem wellNested_content (m : Nat) (lab : String)
    (rest : List SNode) :
    wellNested m (.content lab :: rest) = wellNested m rest := by
  rw [wellNested.eq_def]

@[simp] theorem wellNested_sec (m l : Nat) (h : String)
    (body rest : List SNode) :
    wellNested m (.sec l h body :: rest) =
      (decide (m < l) && wellNested l body && wellNested m rest) := by
  rw [wellNested.eq_def]

theorem wellNested_append (m : Nat) (a b : List SNode) :
    wellNested m (a ++ b) = (wellNested m a && wellNested m b) := by
  induction a with
  | nil => simp [wellNested]
  | cons x xs ih => cases x <;> simp [wellNested, ih, Bool.and_assoc]

theorem popGEAux_ok (L : Nat) :
    ∀ (stack : List Frame) (sl : Nat) (sh : String) (sb : List SNode)
      (root : List SNode),
    stackOK stack = true → wellNested 0 root = true →
    0 < sl → wellNested sl sb = true → headLt sl stack = true →
    stackOK (popGEAux L (.sec sl sh sb) stack root).1 = true ∧
    wellNested 0 (popGEAux L (.sec sl sh sb) stack root).2 = true ∧
    headLt L (popGEAux L (.sec sl sh sb) stack root).1 = true := by
  intro stack
  induction stack with
  | nil =>
      intro sl sh sb root hs hr hsl hsb _
      refine ⟨rfl, ?_, rfl⟩
      rw [popGEAux]
      simp [wellNested_append, hr, wellNested, hsl, hsb]
  | cons g rs ih =>
      intro sl sh sb root hs hr hsl hsb htop
      simp only [stackOK, Bool.and_eq_true, decide_eq_true_eq] at hs
      obtain ⟨⟨⟨hg0, hgb⟩, hadj⟩, hrs⟩ := hs
      simp only [headLt, decide_eq_true_eq] at htop
      rw [popGEAux]
      split
      · refine ih g.level g.heading (g.body ++ [.sec sl sh sb]) root hrs hr
          hg0 ?_ ?_
        · rw [wellNested_append]
          simp [hgb, wellNested, htop, hsb]
        · cases rs with
          | nil => rfl
          | cons g2 rs2 =>
              simp only [headLt, decide_eq_true_eq]
              simpa using hadj
      · refine ⟨?_, hr, ?_⟩
        · simp only [stackOK, Bool.and_eq_true, decide_eq_true_eq]
          refine ⟨⟨⟨hg0, ?_⟩, ?_⟩, hrs⟩
          · rw [wellNested_append]
            simp [hgb, wellNested, htop, hsb]
          · simpa using hadj
        · simp only [headLt, decide_eq_true_eq]
          omega

theorem popGE_ok (L : Nat) (stack : List Frame) (root : List SNode)
    (hs : stackOK stack = true) (hr : wellNested 0 root = true) :
    stackOK (popGE L stack root).1 = true ∧
    wellNested 0 (popGE L stack root).2 = true ∧
    headLt L (popGE L stack root).1 = true := by
  cases stack with
  | nil => exact ⟨rfl, hr, rfl⟩
  | cons f rest =>
      simp only [stackOK, Bool.and_eq_true, decide_eq_true_eq] at hs
      obtain ⟨⟨⟨hf0, hfb⟩, hadj⟩, hrest⟩ := hs
      rw [popGE]
      split
      · refine popGEAux_ok L rest f.level f.heading f.body root hrest hr hf0
          hfb ?_
        cases rest with
        | nil => rfl
        | cons g rs =>
            simp only [headLt, decide_eq_true_eq]
            simpa using hadj
      · refine ⟨?_, hr, ?_⟩
        · simp only [stackOK, Bool.and_eq_true, decide_eq_true_eq]
          exact ⟨⟨⟨hf0, hfb⟩, hadj⟩, hrest⟩
        · simp only [headLt, decide_eq_true_eq]
          omega

theorem buildGo_wellNested (cs : List FlatChild) (stack : List Frame)
    (root : List SNode) (hs : stackOK stack = true)
    (hr : wellNested 0 root = true) :
    wellNested 0 (buildGo cs stack root) = true := by
  induction cs, stack, root using buildGo.induct with
  | case1 stack root =>
      rw [show buildGo [] stack root = (popGE 0 stack root).2 from rfl]
      exact (popGE_ok 0 stack root hs hr).2.1
  | case2 stack root level label rest h p ih =>
      have hp : p = popGE level stack root := rfl
      rw [show buildGo (.elem level label :: rest) stack root =
          buildGo rest (⟨level, label, []⟩ :: p.1) p.2 from by
        rw [buildGo.eq_def]; simp [h]]
      have hok := popGE_ok level stack root hs hr
      rw [← hp] at hok
      refine ih ?_ hok.2.1
      simp only [stackOK, Bool.and_eq_true, decide_eq_true_eq]
      refine ⟨⟨⟨h, wellNested_nil level⟩, ?_⟩, hok.1⟩
      cases hp1 : p.1 with
      | nil => simp
      | cons g rs =>
          have := hok.2.2
          rw [hp1] at this
          simpa [headLt] using this
  | case3 root level label rest h ih =>
      rw [show buildGo (.elem level label :: rest) [] root =
          buildGo rest [] (root ++ [.content label]) from by
        rw [buildGo.eq_def]; simp [h]]
      refine ih rfl ?_
      rw [wellNested_append]
      simp [hr, wellNested]
  | case4 root level label rest h f frest ih =>
      rw [show buildGo (.elem level label :: rest) (f :: frest) root =
          buildGo rest ({ f with body := f.body ++ [.content label] } :: frest)
            root from by
        rw [buildGo.eq_def]; simp [h]]
      simp only [stackOK, Bool.and_eq_true, decide_eq_true_eq] at hs
      obtain ⟨⟨⟨hf0, hfb⟩, hadj⟩, hrest⟩ := hs
      refine ih ?_ hr
      simp only [stackOK, Bool.and_eq_true, decide_eq_true_eq]
      refine ⟨⟨⟨hf0, ?_⟩, ?_⟩, hrest⟩
      · rw [wellNested_append]
        simp [hfb, wellNested]
      · simpa using hadj

theorem buildSections_wellNested (cs : List FlatChild) :
    wellNested 0 (buildSections cs) = true :=
  buildGo_wellNested cs [] [] rfl (wellNested_nil 0)

theorem headingOffsets_aux (height : String → Nat) (N : Nat) :
    ∀ forest : List SNode, sizeOf forest ≤ N →
    ∀ (anc : List Nat) (m : Nat),
      wellNested m forest = true → anc.length ≤ m →
      ∀ (l : Nat) (h : String) (off : Nat),
        (l, h, off) ∈ headingOffsets height forest anc → l = 1 → off = 0 := by
  induction N with
  | zero =>
      intro forest hf anc m _ _ l h off hm _
      cases forest with
      | nil => simp [headingOffsets] at hm
      | cons x rest => simp at hf
  | succ n ih =>
      intro forest hf anc m hw ha l h off hm h1
      cases forest with
      | nil => simp [headingOffsets] at hm
      | cons x rest =>
          cases x with
          | content lab =>
              rw [headingOffsets_content] at hm
              rw [wellNested_content] at hw
              have hsz : sizeOf rest ≤ n := by simp at hf; omega
              exact ih rest hsz anc m hw ha l h off hm h1
          | sec l0 h0 body =>
              rw [headingOffsets_sec] at hm
              rw [wellNested_sec] at hw
              simp only [Bool.and_eq_true, decide_eq_true_eq] at hw
              obtain ⟨⟨hml, hwb⟩, hwr⟩ := hw
              have hszb : sizeOf body ≤ n := by simp at hf; omega
              have hszr : sizeOf rest ≤ n := by simp at hf; omega
              simp only [List.mem_cons, List.mem_append, Prod.mk.injEq] at hm
              rcases hm with ⟨hl, hh, hoff⟩ | hm | hm
              · subst h1
                have hm0 : m = 0 := by omega
                subst hm0
                have hanc : anc = [] :=
                  List.eq_nil_of_length_eq_zero (by omega)
                rw [hoff, hanc]
                rfl
              · exact ih body hszb (height h0 :: anc) l0 hwb
                  (by simp; omega) l h off hm h1
              · exact ih rest hszr anc m hwr ha l h off hm h1

/-! ### C8 — stacked sticky offsets -/

/-- C8: every heading's sticky offset is the sum of the rendered heights
of its strict ancestor Sections' headings (that sum is what
`headingOffsets` assigns, mirroring the ancestor walk of
`setStickyOffsets`); consequently, for every document a level-1 heading's
offset is 0 — a level-1 Section never has an ancestor Section in the
built forest — and in the `"* A\n** B\n* C"` example the level-2
heading B, nested directly under the single level-1 heading A, gets
exactly A's rendered height, for any height assignment. -/
theorem stickyOffsets_spec :
    (∀ (cs : List FlatChild) (height : String → Nat) (l : Nat) (h : String)
       (off : Nat),
       (l, h, off) ∈ headingOffsets height (buildSections cs) [] →
       l = 1 → off = 0) ∧
    (∀ height : String → Nat,
       headingOffsets height
         (buildSections [.elem 1 "A", .elem 2 "B", .elem 1 "C"]) [] =
         [(1, "A", 0), (2, "B", height "A"), (1, "C", 0)]) := by
  constructor
  · intro cs height l h off hm h1
    exact headingOffsets_aux height (sizeOf (buildSections cs))
      (buildSections cs) le_rfl [] 0 (buildSections_wellNested cs)
      (by simp) l h off hm h1
  · intro height
    rw [show buildSections [.elem 1 "A", .elem 2 "B", .elem 1 "C"] =
        [.sec 1 "A" [.sec 2 "B" []], .sec 1 "C" []] from rfl]
    simp

/-- Witness for C8: in the concrete document with constant heading height
7, the level-1 heading A is assigned offset 0 (and appears in the computed
offset list). -/
theorem stickyOffsets_spec_witness :
    (1, "A", 0) ∈ headingOffsets (fun _ => 7)
        (buildSections [.elem 1 "A", .elem 2 "B", .elem 1 "C"]) [] ∧
    (0 : Nat) = 0 := by
  constructor
  · rw [show buildSections [.elem 1 "A", .elem 2 "B", .elem 1 "C"] =
        [.sec 1 "A" [.sec 2 "B" []], .sec 1 "C" []] from rfl]
    simp
  · exact stickyOffsets_spec.1 [.elem 1 "A", .elem 2 "B", .elem 1 "C"]
      (fun _ => 7) 1 "A" 0
      (by rw [show buildSections [.elem 1 "A", .elem 2 "B", .elem 1 "C"] =
            [.sec 1 "A" [.sec 2 "B" []], .sec 1 "C" []] from rfl]
          simp) rfl

/-! ## File-reference detection (`webview.ts`, `FILE_TYPE_MAP`,
`FILE_REF_PATTERN`, `replaceFileRefs`)

Text is handled as `List Char`.  `FILE_TYPE_MAP` is built exactly as in
the source (per-group `forEach` inserts); a record lookup with the
`|| "generic"` fallback becomes an association-list lookup with default.
A token matched by `FILE_REF_PATTERN` is, by the shape of the regex, a
word of the language `(seg "/")* name "." ext (":" digits)?` with `seg`
and `name` nonempty words over `[\w.*-]` and `ext` drawn from the
pattern's alternation; `isFileRefToken` is that language. -/

/-- One character of the `[\w.*-]` class. -/
def isRefChar (c : Char) : Bool :=
  c.isAlphanum || c = '_' || c = '.' || c = '*' || c = '-'

/-- The `FILE_TYPE_MAP` association table, in source insertion order. -/
def FILE_TYPE_MAP : List (String × String) :=
  (["org", "md"].map fun e => (e, "org")) ++
  (["mdx", "rst", "txt"].map fun e => (e, "doc")) ++
  (["py", "js", "ts", "tsx", "jsx", "rs", "go", "java", "c", "cpp", "h",
    "rb", "php", "swift", "kt", "cs", "sh", "bash", "zsh", "lua", "r", "pl",
    "ex", "exs", "hs", "ml", "scala", "clj"].map fun e => (e, "code")) ++
  (["json", "yaml", "yml", "toml", "xml", "html", "css", "scss", "less",
    "ini", "cfg", "conf", "env", "sql"].map fun e => (e, "config"))

/-- Lookup `FILE_TYPE_MAP[ext] || "generic"`. -/
def fileTypeOf (ext : String) : String :=
  (FILE_TYPE_MAP.lookup ext).getD "generic"

/-- The extension alternation of `FILE_REF_PATTERN`, in pattern order. -/
def refExtensions : List String :=
  ["org", "md", "mdx", "py", "js", "ts", "tsx", "jsx", "rs", "go", "java",
   "c", "cpp", "h", "rb", "php", "swift", "kt", "cs", "sh", "bash", "zsh",
   "lua", "r", "pl", "ex", "exs", "hs", "ml", "scala", "clj", "json",
   "yaml", "yml", "toml", "xml", "html", "css", "scss", "less", "ini",
   "cfg", "conf", "env", "sql", "rst", "txt"]

/-- The replace `ref.replace(/:\d+$/, "")`: strip one trailing `":" ++ digits` group
(at least one digit) if present. -/
def stripLineSuffix (l : List Char) : List Char :=
  if (l.reverse.takeWhile Char.isDigit).isEmpty then l
  else
    match l.reverse.drop (l.reverse.takeWhile Char.isDigit).length with
    | ':' :: rest => rest.reverse
    | _ => l

/-- The call `.split(".").pop()`: the (possibly empty) suffix after the last `'.'`,
or the whole string when it has no `'.'`. -/
def afterLastDot (l : List Char) : List Char :=
  (l.reverse.takeWhile (fun c => c != '.')).reverse

/-- The `ext` computed by `replaceFileRefs` for a matched token. -/
def extOfRef (r : List Char) : String :=
  String.mk (afterLastDot (stripLineSuffix r))

/-- Membership in the (full-match) language of `FILE_REF_PATTERN`. -/
def isFileRefToken (s : List Char) : Prop :=
  ∃ (dirs : List (List Char)) (nm ext line : List Char),
    s = dirs.flatMap (fun d => d ++ ['/']) ++ nm ++ '.' :: (ext ++ line) ∧
    (∀ d ∈ dirs, d ≠ [] ∧ ∀ c ∈ d, isRefChar c = true) ∧
    nm ≠ [] ∧ (∀ c ∈ nm, isRefChar c = true) ∧
    String.mk ext ∈ refExtensions ∧
    (line = [] ∨
     ∃ ds, ds ≠ [] ∧ (∀ c ∈ ds, c.isDigit = true) ∧ line = ':' :: ds)

theorem takeWhile_append_all (p : Char → Bool) (a b : List Char)
    (h : ∀ c ∈ a, p c = true) :
    (a ++ b).takeWhile p = a ++ b.takeWhile p := by
  induction a with
  | nil => simp
  | cons x xs ih =>
      simp only [List.cons_append, List.takeWhile_cons]
      rw [h x (by simp), ih (fun c hc => h c (by simp [hc]))]
      simp

theorem stripLineSuffix_line (body ds : List Char) (hne : ds ≠ [])
    (hd : ∀ c ∈ ds, c.isDigit = true) :
    stripLineSuffix (body ++ ':' :: ds) = body := by
  unfold stripLineSuffix
  have hrev : (body ++ ':' :: ds).reverse =
      ds.reverse ++ ':' :: body.reverse := by simp
  rw [hrev]
  have htw : (ds.reverse ++ ':' :: body.reverse).takeWhile Char.isDigit =
      ds.reverse := by
    rw [takeWhile_append_all Char.isDigit ds.reverse (':' :: body.reverse)
      (fun c hc => hd c (by simpa using hc))]
    simp [List.takeWhile_cons]
  rw [htw, if_neg (by simpa using hne)]
  rw [show (ds.reverse ++ ':' :: body.reverse).drop ds.reverse.length =
      ':' :: body.reverse from by
    rw [List.drop_append_of_le_length (le_refl _)]
    simp]
  simp

theorem stripLineSuffix_noline (l : List Char) (c : Char) (rest : List Char)
    (hrev : l.reverse = c :: rest) (hc : c.isDigit = false) :
    stripLineSuffix l = l := by
  unfold stripLineSuffix
  rw [hrev]
  simp [List.takeWhile_cons, hc]

theorem afterLastDot_spec (pre ext : List Char) (hne : '.' ∉ ext) :
    afterLastDot (pre ++ '.' :: ext) = ext := by
  unfold afterLastDot
  have hrev : (pre ++ '.' :: ext).reverse =
      ext.reverse ++ '.' :: pre.reverse := by simp
  rw [hrev]
  have hall : ∀ c ∈ ext.reverse, (c != '.') = true := by
    intro c hc
    have hm : c ∈ ext := by simpa using hc
    have hcne : c ≠ '.' := fun he => hne (he ▸ hm)
    simpa using hcne
  rw [takeWhile_append_all _ ext.reverse ('.' :: pre.reverse) hall]
  simp [List.takeWhile_cons]

/-- Shape facts about each pattern extension: nonempty, dot-free, and its
last character is not a digit. -/
def extOk (e : String) : Bool :=
  !e.data.isEmpty && !e.data.contains '.' &&
    (match e.data.reverse with
     | c :: _ => !c.isDigit
     | [] => false)

theorem refExtensions_ok : ∀ e ∈ refExtensions, extOk e = true := by decide

theorem refExtensions_classified : ∀ e ∈ refExtensions,
    fileTypeOf e ∈ (["org", "doc", "code", "config"] : List String) := by
  decide

/-! ### C10 — every matched reference is classifiable -/

/-- C10: every token in the language of `FILE_REF_PATTERN` has an
extension (after stripping an optional trailing `:lineNumber`) that is a
key of `FILE_TYPE_MAP`, so the computed classification is one of
org (doc-link) / doc (doc-other) / code / config and the `"generic"`
fallback is never produced for a matched reference. -/
theorem fileRefToken_ext_classified (s : List Char)
    (hs : isFileRefToken s) :
    fileTypeOf (extOfRef s) ≠ "generic" ∧
    fileTypeOf (extOfRef s) ∈ (["org", "doc", "code", "config"] : List String)
    := by
  obtain ⟨dirs, nm, ext, line, heq, -, -, -, hext, hline⟩ := hs
  have hok : (!ext.isEmpty && !ext.contains '.' &&
      (match ext.reverse with
       | c :: _ => !c.isDigit
       | [] => false)) = true := refExtensions_ok _ hext
  rw [Bool.and_eq_true, Bool.and_eq_true] at hok
  obtain ⟨⟨hne, hnd⟩, hlast⟩ := hok
  have hdot : '.' ∉ ext := by simpa using hnd
  obtain ⟨c, tail, hrev⟩ : ∃ c tail, ext.reverse = c :: tail := by
    cases hrv : ext.reverse with
    | nil =>
        rw [List.reverse_eq_nil_iff] at hrv
        subst hrv
        simp at hne
    | cons c t => exact ⟨c, t, rfl⟩
  have hcd : c.isDigit = false := by
    rw [hrev] at hlast
    simpa using hlast
  have hstr : extOfRef s = String.mk ext := by
    rcases hline with rfl | ⟨ds, hdne, hdd, rfl⟩
    · have hs2 : s = (dirs.flatMap (fun d => d ++ ['/']) ++ nm) ++
          '.' :: ext := by
        rw [heq]; simp
      have hrevs : s.reverse = c ::
          (tail ++ '.' ::
            (dirs.flatMap (fun d => d ++ ['/']) ++ nm).reverse) := by
        rw [hs2]
        simp [hrev]
      unfold extOfRef
      rw [stripLineSuffix_noline s c _ hrevs hcd, hs2,
        afterLastDot_spec _ _ hdot]
    · have hs2 : s = ((dirs.flatMap (fun d => d ++ ['/']) ++ nm) ++
          '.' :: ext) ++ ':' :: ds := by
        rw [heq]; simp
      unfold extOfRef
      rw [hs2, stripLineSuffix_line _ _ hdne hdd,
        afterLastDot_spec _ _ hdot]
  have hcls := refExtensions_classified _ hext
  rw [hstr]
  refine ⟨?_, hcls⟩
  intro hgen
  rw [hgen] at hcls
  simp at hcls

/-- Witness for C10 at the concrete token `"README.org"`: it is in the
pattern's language and its classification is not `"generic"`. -/
theorem fileRefToken_ext_classified_witness :
    isFileRefToken "README.org".data ∧
    fileTypeOf (extOfRef "README.org".data) ≠ "generic" := by
  have ht : isFileRefToken "README.org".data := by
    refine ⟨[], "README".data, "org".data, [], ?_, ?_, ?_, ?_, ?_,
      Or.inl rfl⟩
    · decide
    · simp
    · decide
    · decide
    · decide
  exact ⟨ht, (fileRefToken_ext_classified _ ht).1⟩

/-! ## File-reference rewriting (`webview.ts`, `replaceFileRefs`)

The DOM fragment built by `replaceFileRefs` is a list of plain text
pieces, interactive link elements (whose click handler posts
`{ command: "openFile", path: ref }` — recorded in the `link`
constructor), and non-interactive styled spans.  The regex `exec` loop is
modelled by the list of matches it yields: pairs of a start index and the
matched token, in order, non-overlapping, each occurring verbatim at its
index (`validMatches`). -/

/-- One node of the built DOM fragment. -/
inductive Frag where
  | plain (s : List Char)
  | link (cls : String) (text : List Char) (msgCommand : String)
      (msgPath : List Char)
  | span (cls : String) (text : List Char)
deriving DecidableEq

/-- The element built for one matched reference: doc-link (`"org"`)
classifications become an interactive link sending `openFile` with
exactly the matched path; everything else becomes a styled span. -/
def mkRefFrag (r : List Char) : Frag :=
  if fileTypeOf (extOfRef r) = "org" then
    .link ("file-ref file-ref-" ++ fileTypeOf (extOfRef r)) r "openFile" r
  else
    .span ("file-ref file-ref-" ++ fileTypeOf (extOfRef r)) r

/-- The `while ((match = FILE_REF_PATTERN.exec(text)) !== null)` loop with
its `lastIndex` cursor, plus the final tail slice. -/
def replaceGo (text : List Char) : Nat → List (Nat × List Char) → List Frag
  | lastIndex, [] =>
      if lastIndex < text.length then [.plain (text.drop lastIndex)] else []
  | lastIndex, (i, r) :: ms =>
      (if lastIndex < i then
         [Frag.plain ((text.drop lastIndex).take (i - lastIndex))]
       else []) ++
      (mkRefFrag r :: replaceGo text (i + r.length) ms)

/-- Source function `replaceFileRefs(textNode)` on a text node with the given matches. -/
def replaceFileRefs (text : List Char) (ms : List (Nat × List Char)) :
    List Frag :=
  replaceGo text 0 ms

/-- The matches produced by the `exec` loop from cursor `lastIndex`:
in order, non-overlapping, nonempty, and each occurring verbatim at its
start index. -/
def validMatches (text : List Char) : Nat → List (Nat × List Char) → Prop
  | _, [] => True
  | lastIndex, (i, r) :: ms =>
      lastIndex ≤ i ∧ r ≠ [] ∧ (text.drop i).take r.length = r ∧
        validMatches text (i + r.length) ms

/-- The text content of a fragment node. -/
def fragChars : Frag → List Char
  | .plain s => s
  | .link _ t _ _ => t
  | .span _ t => t

@[simp] theorem fragChars_plain (s : List Char) :
    fragChars (.plain s) = s := rfl

@[simp] theorem fragChars_link (cls : String) (t : List Char) (mc : String)
    (mp : List Char) : fragChars (.link cls t mc mp) = t := rfl

@[simp] theorem fragChars_span (cls : String) (t : List Char) :
    fragChars (.span cls t) = t := rfl

/-- Is this fragment node a rewritten reference (not plain text)? -/
def isRefFrag : Frag → Bool
  | .plain _ => false
  | .link _ _ _ _ => true
  | .span _ _ => true

theorem isRefFrag_mkRefFrag (r : List Char) :
    isRefFrag (mkRefFrag r) = true := by
  unfold mkRefFrag
  split <;> rfl

theorem replaceGo_chars (text : List Char) :
    ∀ (ms : List (Nat × List Char)) (l : Nat), validMatches text l ms →
      (replaceGo text l ms).flatMap fragChars = text.drop l := by
  intro ms
  induction ms with
  | nil =>
      intro l _
      rw [replaceGo]
      by_cases hl : l < text.length
      · simp [hl, fragChars]
      · simp [hl, List.drop_eq_nil_of_le (le_of_not_lt hl)]
  | cons p ms ih =>
      obtain ⟨i, r⟩ := p
      intro l hv
      obtain ⟨hli, hrne, hsub, hrest⟩ := hv
      rw [replaceGo]
      have h1 : text.drop i = r ++ text.drop (i + r.length) := by
        conv_lhs => rw [← List.take_append_drop r.length (text.drop i)]
        rw [hsub, List.drop_drop, Nat.add_comm]
      have hfr : fragChars (mkRefFrag r) = r := by
        unfold mkRefFrag
        split <;> rfl
      by_cases hlt : l < i
      · have h2 : text.drop l =
            (text.drop l).take (i - l) ++ text.drop i := by
          conv_lhs => rw [← List.take_append_drop (i - l) (text.drop l)]
          rw [List.drop_drop, show l + (i - l) = i from by omega]
        simp only [hlt, if_pos, List.flatMap_append, List.flatMap_cons,
          ih _ hrest, List.flatMap_nil, List.append_nil,
          List.append_assoc, hfr, fragChars_plain]
        conv_rhs => rw [h2, h1]
      · have hle : l = i := by omega
        subst hle
        rw [if_neg (lt_irrefl l)]
        simp only [List.nil_append, List.flatMap_cons, ih _ hrest, hfr]
        rw [h1]

theorem replaceGo_refFrags (text : List Char) :
    ∀ (ms : List (Nat × List Char)) (l : Nat),
      (replaceGo text l ms).filter isRefFrag =
        ms.map (fun p => mkRefFrag p.2) := by
  intro ms
  induction ms with
  | nil =>
      intro l
      rw [replaceGo]
      split <;> simp [isRefFrag]
  | cons p ms ih =>
      obtain ⟨i, r⟩ := p
      intro l
      rw [replaceGo]
      rw [List.filter_append, List.filter_cons]
      rw [isRefFrag_mkRefFrag, ih]
      split <;> simp [isRefFrag]

/-! ### C7 — file-reference classification and text preservation -/

/-- C7: for every text node and every valid match list produced by the
scan, (1) concatenating the text of the rebuilt fragment reproduces the
original text exactly; (2) every matched token becomes, per the
extension-to-classification lookup, either an interactive doc-link element
whose click posts an `openFile` message carrying exactly the matched path
(classification `"org"`), or a non-interactive styled span (any other
classification); and concretely `"src/main.ts"` is rewritten to a
code-classified span while `"README.org"` is rewritten to an interactive
openFile link. -/
theorem replaceFileRefs_spec :
    (∀ (text : List Char) (ms : List (Nat × List Char)),
       validMatches text 0 ms →
       (replaceFileRefs text ms).flatMap fragChars = text) ∧
    (∀ (text : List Char) (ms : List (Nat × List Char)) (i : Nat)
       (r : List Char), (i, r) ∈ ms →
       (fileTypeOf (extOfRef r) = "org" →
          Frag.link ("file-ref file-ref-" ++ fileTypeOf (extOfRef r)) r
              "openFile" r ∈ replaceFileRefs text ms) ∧
       (fileTypeOf (extOfRef r) ≠ "org" →
          Frag.span ("file-ref file-ref-" ++ fileTypeOf (extOfRef r)) r ∈
            replaceFileRefs text ms)) ∧
    mkRefFrag "src/main.ts".data =
      .span "file-ref file-ref-code" "src/main.ts".data ∧
    mkRefFrag "README.org".data =
      .link "file-ref file-ref-org" "README.org".data "openFile"
        "README.org".data := by
  refine ⟨?_, ?_, by decide, by decide⟩
  · intro text ms hv
    rw [replaceFileRefs, replaceGo_chars text ms 0 hv, List.drop_zero]
  · intro text ms i r hm
    have hmem : mkRefFrag r ∈ replaceFileRefs text ms := by
      have h1 : mkRefFrag r ∈ ms.map (fun p => mkRefFrag p.2) :=
        List.mem_map.mpr ⟨(i, r), hm, rfl⟩
      rw [← replaceGo_refFrags text ms 0] at h1
      exact List.mem_of_mem_filter h1
    constructor
    · intro horg
      rw [show Frag.link ("file-ref file-ref-" ++ fileTypeOf (extOfRef r)) r
          "openFile" r = mkRefFrag r from by rw [mkRefFrag, if_pos horg]]
      exact hmem
    · intro hns
      rw [show Frag.span ("file-ref file-ref-" ++ fileTypeOf (extOfRef r)) r =
          mkRefFrag r from by rw [mkRefFrag, if_neg hns]]
      exact hmem

/-- Witness for C7: in the text `"see README.org here"` with its single
match at index 4, the fragment reassembles to the original text and
contains the interactive openFile link carrying exactly
`"README.org"`. -/
theorem replaceFileRefs_spec_witness :
    validMatches "see README.org here".data 0 [(4, "README.org".data)] ∧
    (replaceFileRefs "see README.org here".data
        [(4, "README.org".data)]).flatMap fragChars =
      "see README.org here".data ∧
    Frag.link "file-ref file-ref-org" "README.org".data "openFile"
        "README.org".data ∈
      replaceFileRefs "see README.org here".data
        [(4, "README.org".data)] := by
  have hv : validMatches "see README.org here".data 0
      [(4, "README.org".data)] :=
    ⟨by omega, by decide, by decide, trivial⟩
  refine ⟨hv, replaceFileRefs_spec.1 _ _ hv, ?_⟩
  have h := (replaceFileRefs_spec.2.1 "see README.org here".data
    [(4, "README.org".data)] 4 "README.org".data (by simp)).1 (by decide)
  rw [show ("file-ref file-ref-" ++ fileTypeOf (extOfRef "README.org".data))
      = "file-ref file-ref-org" from by decide] at h
  exact h

end OrgViewer
